import Mathlib

/-!
Shallow embedding of the reconciliation and batching engine of the
seller-apis repository (files seller.py and market.py), together with
theorems settling the frozen claims about it.

Conventions of the embedding:
* Python dictionaries that play the role of records become Lean structures.
* Python functions that can raise (int parsing, range with step zero)
  return Option, with none standing for the raised exception.
* The in-place mutation of the offer_ids list performed by create_stocks
  is made explicit: the Lean function returns both the produced records
  and the final state of the offer_ids list.
* The unbounded while-loops of the paginated catalog fetchers are given a
  fuel parameter; none means the loop did not finish within the fuel, and
  divergence is expressed as returning none for every fuel.
-/

set_option maxRecDepth 16384

/-- One row of the supplier remnants feed. The fields model the values of
the Python dictionary keys (code, quantity, price in the original feed
language), each already converted to a string as the code does with str. -/
structure Remnant where
  code : String
  quantity : String
  price : String
deriving DecidableEq, Repr

/-- Value of a nonempty all-digit character list, read in base ten. -/
def digitsVal (ds : List Char) : Nat :=
  ds.foldl (fun a c => 10 * a + (c.toNat - 48)) 0

/-- Parse a list of characters as a nonempty run of decimal digits. -/
def digitsToNat (ds : List Char) : Option Nat :=
  if ds = [] then none
  else if ds.all Char.isDigit then some (digitsVal ds)
  else none

/-- Strip leading and trailing whitespace from a character list, as the
Python str.strip preprocessing of the int builtin does. -/
def pyStrip (cs : List Char) : List Char :=
  (((cs.dropWhile Char.isWhitespace).reverse).dropWhile Char.isWhitespace).reverse

/-- The Python builtin int applied to a decimal string literal: strip
surrounding whitespace, allow one leading sign, then require a nonempty
run of digits; anything else raises ValueError, modelled as none. -/
def pyInt (s : String) : Option Int :=
  match pyStrip s.toList with
  | '+' :: ds => (digitsToNat ds).map (fun n => (n : Int))
  | '-' :: ds => (digitsToNat ds).map (fun n => -(n : Int))
  | ds => (digitsToNat ds).map (fun n => (n : Int))

/-- Quantity resolution shared by seller.create_stocks and
market.create_stocks: the string ">10" maps to 100, the string "1" maps
to 0, and any other raw value is parsed by the Python int builtin. -/
def resolveCount (count : String) : Option Int :=
  if count = ">10" then some 100
  else if count = "1" then some 0
  else pyInt count

namespace Seller

/-- Embedding of seller.price_conversion: take the part of the string
before the first dot, as the Python split does, and keep only the ASCII
decimal digits, as the regular expression substitution does. -/
def price_conversion (price : String) : String :=
  String.mk ((price.toList.takeWhile (fun c => c != '.')).filter Char.isDigit)

/-- One stock record produced by seller.create_stocks. -/
structure Stock where
  offer_id : String
  stock : Int
deriving DecidableEq, Repr

/-- One price record produced by seller.create_prices. -/
structure Price where
  auto_action_enabled : String
  currency_code : String
  offer_id : String
  old_price : String
  price : String
deriving DecidableEq, Repr

/-- The first loop of seller.create_stocks: walk the remnants, and for
each remnant whose code is in the current offer_ids list, resolve its
quantity, emit a stock record and remove the code from the list (Python
list.remove deletes the first occurrence, List.erase here). Returns the
emitted records and the final state of the offer_ids list; none models
the ValueError raised by int on an unparsable quantity. -/
def stocksLoop (watch_remnants : List Remnant) (offer_ids : List String) :
    Option (List Stock × List String) :=
  match watch_remnants with
  | [] => some ([], offer_ids)
  | w :: ws =>
    if w.code ∈ offer_ids then
      match resolveCount w.quantity with
      | none => none
      | some n =>
        match stocksLoop ws (offer_ids.erase w.code) with
        | none => none
        | some (s, rest) => some (⟨w.code, n⟩ :: s, rest)
    else stocksLoop ws offer_ids

/-- Embedding of seller.create_stocks: run the remnant loop, then append
a record with stock 0 for every offer id still left in the list. The
second component is the final state of the caller-visible offer_ids
list, which the Python function mutates in place. -/
def create_stocks (watch_remnants : List Remnant) (offer_ids : List String) :
    Option (List Stock × List String) :=
  match stocksLoop watch_remnants offer_ids with
  | none => none
  | some (stocks, rest) => some (stocks ++ rest.map (fun i => ⟨i, 0⟩), rest)

/-- Embedding of seller.create_prices: for each remnant whose code is in
the offer_ids list, emit one price record; the list is not modified and
nothing is removed from it. -/
def create_prices (watch_remnants : List Remnant) (offer_ids : List String) :
    List Price :=
  match watch_remnants with
  | [] => []
  | w :: ws =>
    if w.code ∈ offer_ids then
      ⟨"UNKNOWN", "RUB", w.code, "0", price_conversion w.price⟩ ::
        create_prices ws offer_ids
    else create_prices ws offer_ids

/-- One catalog item of the Ozon product list response. -/
structure Item where
  offer_id : String
deriving DecidableEq, Repr

/-- One page of the Ozon product list response, as read by
seller.get_offer_ids: the items, the optional server-reported total, and
the cursor for the next request. -/
structure Page where
  items : List Item
  total : Option Int
  last_id : String
deriving DecidableEq, Repr

/-- The while-loop of seller.get_offer_ids: request a page with the
current cursor, extend the accumulated list, and stop exactly when the
server-reported total equals the accumulated length. The server response
is modelled as a function of the cursor; the fuel bounds the number of
iterations observed, and none means the loop did not stop within it. -/
def fetchLoop (server : String → Page) : Nat → String → List Item → Option (List Item)
  | 0, _, _ => none
  | fuel + 1, last_id, acc =>
    let p := server last_id
    let acc2 := acc ++ p.items
    if p.total = some (acc2.length : Int) then some acc2
    else fetchLoop server fuel p.last_id acc2

/-- Embedding of seller.get_offer_ids: run the pagination loop starting
from the empty cursor and project each item to its offer id. -/
def get_offer_ids (server : String → Page) (fuel : Nat) : Option (List String) :=
  (fetchLoop server fuel "" []).map (fun l => l.map Item.offer_id)

/-- Embedding of the Python range builtin restricted to integer
arguments, following the CPython length computation: all divisions occur
on nonnegative numerators with positive denominators. A zero step raises
ValueError in Python; that case is excluded before this function is
used. -/
def pyRangeLen (start stop step : Int) : Nat :=
  if 0 < step then
    if start < stop then ((stop - start - 1) / step).toNat + 1 else 0
  else if step < 0 then
    if stop < start then ((start - stop - 1) / (-step)).toNat + 1 else 0
  else 0

/-- The list of values of the Python range builtin for a nonzero step. -/
def pyRange (start stop step : Int) : List Int :=
  (List.range (pyRangeLen start stop step)).map (fun (k : Nat) => start + step * (k : Int))

/-- Embedding of seller.divide: the generator yields the slices of the
list at the indices of range over its length with step n, and the whole
call raises ValueError, modelled as none, exactly when n is zero. Each
yielded slice is the elements from index i of length at most n. -/
def divide {α : Type} (lst : List α) (n : Int) : Option (List (List α)) :=
  if n = 0 then none
  else some ((pyRange 0 lst.length n).map (fun i => (lst.drop i.toNat).take n.toNat))

/-- The batch plan of the dispatch loop in seller.upload_prices, which
chunks the price list with divide at size 1000. -/
def upload_prices_batches (prices : List Price) : Option (List (List Price)) :=
  divide prices 1000

/-- The batch plan of the dispatch loop in seller.upload_stocks, which
chunks the stock list with divide at size 100. -/
def upload_stocks_batches (stocks : List Stock) : Option (List (List Stock)) :=
  divide stocks 100

/-- The batch plan of the stock dispatch loop in seller.main, which
chunks the stock list with divide at size 100. -/
def main_stock_batches (stocks : List Stock) : Option (List (List Stock)) :=
  divide stocks 100

/-- The batch plan of the price dispatch loop in seller.main, which
chunks the price list with divide at size 900. -/
def main_price_batches (prices : List Price) : Option (List (List Price)) :=
  divide prices 900

end Seller

namespace Market

/-- The nested offer object of one Yandex Market catalog entry. -/
structure Offer where
  shopSku : String
deriving DecidableEq, Repr

/-- One entry of the offer mapping list of a Yandex Market catalog
response page. -/
structure Entry where
  offer : Offer
deriving DecidableEq, Repr

/-- One page of the Yandex Market catalog response as read by
market.get_offer_ids: the entries and the next page token taken from the
paging object, with the empty string standing for an empty or absent
token. The total field models a server-reported overall count that the
code never reads. -/
structure Page where
  offerMappingEntries : List Entry
  nextPageToken : String
  total : Option Int
deriving DecidableEq, Repr

/-- The while-loop of market.get_offer_ids: request a page with the
current token, extend the accumulated list, move to the next token, and
stop exactly when that token is empty or absent. The fuel bounds the
number of iterations observed; none means the loop did not stop within
it. -/
def fetchLoop (server : String → Page) : Nat → String → List Entry → Option (List Entry)
  | 0, _, _ => none
  | fuel + 1, page, acc =>
    let p := server page
    let acc2 := acc ++ p.offerMappingEntries
    let page2 := p.nextPageToken
    if page2 = "" then some acc2
    else fetchLoop server fuel page2 acc2

/-- Embedding of market.get_offer_ids: run the pagination loop starting
from the empty token and project each entry to its shop sku. -/
def get_offer_ids (server : String → Page) (fuel : Nat) : Option (List String) :=
  (fetchLoop server fuel "" []).map (fun l => l.map (fun e => e.offer.shopSku))

/-- One element of the items field of a Yandex Market stock record. -/
structure StockItem where
  count : Int
  type : String
  updatedAt : String
deriving DecidableEq, Repr

/-- One stock record produced by market.create_stocks. -/
structure Stock where
  sku : String
  warehouseId : String
  items : List StockItem
deriving DecidableEq, Repr

/-- One price record produced by market.create_prices; the value is the
integer parsed from the converted price and the currency is fixed. -/
structure Price where
  id : String
  value : Int
  currencyId : String
deriving DecidableEq, Repr

/-- The first loop of market.create_stocks, identical in control flow to
the seller one but emitting the Yandex Market record shape. The date
string is the timestamp the Python function computes once before the
loop, passed here as a parameter. -/
def stocksLoop (date warehouse_id : String) (watch_remnants : List Remnant)
    (offer_ids : List String) : Option (List Stock × List String) :=
  match watch_remnants with
  | [] => some ([], offer_ids)
  | w :: ws =>
    if w.code ∈ offer_ids then
      match resolveCount w.quantity with
      | none => none
      | some n =>
        match stocksLoop date warehouse_id ws (offer_ids.erase w.code) with
        | none => none
        | some (s, rest) => some (⟨w.code, warehouse_id, [⟨n, "FIT", date⟩]⟩ :: s, rest)
    else stocksLoop date warehouse_id ws offer_ids

/-- Embedding of market.create_stocks: run the remnant loop, then append
a record with count 0 for every offer id still left in the list. The
second component is the final state of the caller-visible offer_ids
list, which the Python function mutates in place. -/
def create_stocks (date warehouse_id : String) (watch_remnants : List Remnant)
    (offer_ids : List String) : Option (List Stock × List String) :=
  match stocksLoop date warehouse_id watch_remnants offer_ids with
  | none => none
  | some (stocks, rest) =>
    some (stocks ++ rest.map (fun i => ⟨i, warehouse_id, [⟨0, "FIT", date⟩]⟩), rest)

/-- Embedding of market.create_prices: for each remnant whose code is in
the offer_ids list, emit one price record whose value is the Python int
of the converted price; none models the ValueError when that parse
fails. The list is not modified and nothing is removed from it. -/
def create_prices (watch_remnants : List Remnant) (offer_ids : List String) :
    Option (List Price) :=
  match watch_remnants with
  | [] => some []
  | w :: ws =>
    if w.code ∈ offer_ids then
      match pyInt (Seller.price_conversion w.price) with
      | none => none
      | some v =>
        match create_prices ws offer_ids with
        | none => none
        | some rest => some (⟨w.code, v, "RUR"⟩ :: rest)
    else create_prices ws offer_ids

/-- The batch plan of the dispatch loop in market.upload_prices, which
chunks the price list with divide at size 500. -/
def upload_prices_batches (prices : List Price) : Option (List (List Price)) :=
  Seller.divide prices 500

/-- The batch plan of the dispatch loop in market.upload_stocks, which
chunks the stock list with divide at size 2000; market.main uses the
same size for its stock dispatch loops. -/
def upload_stocks_batches (stocks : List Stock) : Option (List (List Stock)) :=
  Seller.divide stocks 2000

end Market

namespace Seller

/-- Characterization of membership after the remnant loop: the ids of
the emitted records and the leftover ids together are exactly the input
ids, as sets. -/
theorem stocksLoop_mem : ∀ (rem : List Remnant) (ids : List String)
    (s : List Stock) (rest : List String),
    stocksLoop rem ids = some (s, rest) →
    ∀ x : String, x ∈ ids ↔ x ∈ s.map Stock.offer_id ∨ x ∈ rest := by
  intro rem
  induction rem with
  | nil =>
    intro ids s rest h x
    simp only [stocksLoop, Option.some.injEq, Prod.mk.injEq] at h
    obtain ⟨h1, h2⟩ := h
    subst h1; subst h2
    simp
  | cons w ws ih =>
    intro ids s rest h x
    by_cases hmem : w.code ∈ ids
    · rw [stocksLoop, if_pos hmem] at h
      cases hres : resolveCount w.quantity with
      | none => rw [hres] at h; exact absurd h (by simp)
      | some n =>
        rw [hres] at h
        cases hrec : stocksLoop ws (ids.erase w.code) with
        | none => rw [hrec] at h; exact absurd h (by simp)
        | some pr =>
          obtain ⟨s', rest'⟩ := pr
          rw [hrec] at h
          simp only [Option.some.injEq, Prod.mk.injEq] at h
          obtain ⟨h1, h2⟩ := h
          subst h1; subst h2
          have ihx := ih (ids.erase w.code) s' rest' hrec x
          constructor
          · intro hx
            by_cases hxw : x = w.code
            · subst hxw
              left
              exact List.mem_map.2 ⟨⟨w.code, n⟩, List.mem_cons_self _ _, rfl⟩
            · have hx2 : x ∈ ids.erase w.code := (List.mem_erase_of_ne hxw).2 hx
              rcases ihx.1 hx2 with h1 | h2
              · left
                rw [List.map_cons]
                exact List.mem_cons_of_mem _ h1
              · right; exact h2
          · intro hx
            rcases hx with h1 | h2
            · rw [List.map_cons] at h1
              rcases List.mem_cons.1 h1 with h1a | h1b
              · simp only [h1a]; exact hmem
              · exact List.mem_of_mem_erase (ihx.2 (Or.inl h1b))
            · exact List.mem_of_mem_erase (ihx.2 (Or.inr h2))
    · rw [stocksLoop, if_neg hmem] at h
      exact ih ids s rest h x

/-- The leftover ids after the remnant loop form a sublist of the input
ids, so they keep their original order. -/
theorem stocksLoop_rest_sublist : ∀ (rem : List Remnant) (ids : List String)
    (s : List Stock) (rest : List String),
    stocksLoop rem ids = some (s, rest) → rest.Sublist ids := by
  intro rem
  induction rem with
  | nil =>
    intro ids s rest h
    simp only [stocksLoop, Option.some.injEq, Prod.mk.injEq] at h
    obtain ⟨h1, h2⟩ := h
    subst h1; subst h2
    exact List.Sublist.refl _
  | cons w ws ih =>
    intro ids s rest h
    by_cases hmem : w.code ∈ ids
    · rw [stocksLoop, if_pos hmem] at h
      cases hres : resolveCount w.quantity with
      | none => rw [hres] at h; exact absurd h (by simp)
      | some n =>
        rw [hres] at h
        cases hrec : stocksLoop ws (ids.erase w.code) with
        | none => rw [hrec] at h; exact absurd h (by simp)
        | some pr =>
          obtain ⟨s', rest'⟩ := pr
          rw [hrec] at h
          simp only [Option.some.injEq, Prod.mk.injEq] at h
          obtain ⟨h1, h2⟩ := h
          subst h1; subst h2
          exact (ih _ _ _ hrec).trans (List.erase_sublist _ _)
    · rw [stocksLoop, if_neg hmem] at h
      exact ih ids s rest h

/-- The ids of the emitted records appear in remnant iteration order:
they form a sublist of the remnant codes. -/
theorem stocksLoop_codes_sublist : ∀ (rem : List Remnant) (ids : List String)
    (s : List Stock) (rest : List String),
    stocksLoop rem ids = some (s, rest) →
    (s.map Stock.offer_id).Sublist (rem.map Remnant.code) := by
  intro rem
  induction rem with
  | nil =>
    intro ids s rest h
    simp only [stocksLoop, Option.some.injEq, Prod.mk.injEq] at h
    obtain ⟨h1, h2⟩ := h
    subst h1; subst h2
    simp
  | cons w ws ih =>
    intro ids s rest h
    by_cases hmem : w.code ∈ ids
    · rw [stocksLoop, if_pos hmem] at h
      cases hres : resolveCount w.quantity with
      | none => rw [hres] at h; exact absurd h (by simp)
      | some n =>
        rw [hres] at h
        cases hrec : stocksLoop ws (ids.erase w.code) with
        | none => rw [hrec] at h; exact absurd h (by simp)
        | some pr =>
          obtain ⟨s', rest'⟩ := pr
          rw [hrec] at h
          simp only [Option.some.injEq, Prod.mk.injEq] at h
          obtain ⟨h1, h2⟩ := h
          subst h1; subst h2
          rw [List.map_cons, List.map_cons]
          exact List.Sublist.cons₂ _ (ih _ _ _ hrec)
    · rw [stocksLoop, if_neg hmem] at h
      rw [List.map_cons]
      exact (ih ids s rest h).cons _

/-- For a duplicate-free id list, every emitted record carries the
resolved count of the first remnant bearing its code. -/
theorem stocksLoop_find : ∀ (rem : List Remnant) (ids : List String)
    (s : List Stock) (rest : List String), ids.Nodup →
    stocksLoop rem ids = some (s, rest) →
    ∀ r ∈ s, ∃ w, rem.find? (fun v => v.code == r.offer_id) = some w ∧
      resolveCount w.quantity = some r.stock := by
  intro rem
  induction rem with
  | nil =>
    intro ids s rest _ h r hr
    simp only [stocksLoop, Option.some.injEq, Prod.mk.injEq] at h
    obtain ⟨h1, h2⟩ := h
    subst h1; subst h2
    exact absurd hr (List.not_mem_nil r)
  | cons w ws ih =>
    intro ids s rest hnd h r hr
    by_cases hmem : w.code ∈ ids
    · rw [stocksLoop, if_pos hmem] at h
      cases hres : resolveCount w.quantity with
      | none => rw [hres] at h; exact absurd h (by simp)
      | some n =>
        rw [hres] at h
        cases hrec : stocksLoop ws (ids.erase w.code) with
        | none => rw [hrec] at h; exact absurd h (by simp)
        | some pr =>
          obtain ⟨s', rest'⟩ := pr
          rw [hrec] at h
          simp only [Option.some.injEq, Prod.mk.injEq] at h
          obtain ⟨h1, h2⟩ := h
          subst h1; subst h2
          rcases List.mem_cons.1 hr with hr1 | hr2
          · subst hr1
            refine ⟨w, ?_, hres⟩
            exact List.find?_cons_of_pos _ (by simp)
          · obtain ⟨w', hfind, hres'⟩ :=
              ih (ids.erase w.code) s' rest' (hnd.erase _) hrec r hr2
            refine ⟨w', ?_, hres'⟩
            rw [List.find?_cons_of_neg _ ?_]
            · exact hfind
            · have hro : r.offer_id ∈ ids.erase w.code := by
                have := stocksLoop_mem ws (ids.erase w.code) s' rest' hrec r.offer_id
                exact this.2 (Or.inl (List.mem_map.2 ⟨r, hr2, rfl⟩))
              have hne : r.offer_id ≠ w.code := ((hnd.mem_erase_iff).1 hro).1
              simp only [beq_iff_eq]
              exact fun e => hne e.symm
    · rw [stocksLoop, if_neg hmem] at h
      obtain ⟨w', hfind, hres'⟩ := ih ids s rest hnd h r hr
      refine ⟨w', ?_, hres'⟩
      rw [List.find?_cons_of_neg _ ?_]
      · exact hfind
      · have hro : r.offer_id ∈ ids := by
          have := stocksLoop_mem ws ids s rest h r.offer_id
          exact this.2 (Or.inl (List.mem_map.2 ⟨r, hr, rfl⟩))
        simp only [beq_iff_eq]
        exact fun e => hmem (e ▸ hro)

/-- For a duplicate-free id list, the emitted ids and the leftover ids
form together a duplicate-free list: at most one record per identifier
and no overlap with the leftovers. -/
theorem stocksLoop_nodup : ∀ (rem : List Remnant) (ids : List String)
    (s : List Stock) (rest : List String), ids.Nodup →
    stocksLoop rem ids = some (s, rest) →
    (s.map Stock.offer_id ++ rest).Nodup := by
  intro rem
  induction rem with
  | nil =>
    intro ids s rest hnd h
    simp only [stocksLoop, Option.some.injEq, Prod.mk.injEq] at h
    obtain ⟨h1, h2⟩ := h
    subst h1; subst h2
    simpa using hnd
  | cons w ws ih =>
    intro ids s rest hnd h
    by_cases hmem : w.code ∈ ids
    · rw [stocksLoop, if_pos hmem] at h
      cases hres : resolveCount w.quantity with
      | none => rw [hres] at h; exact absurd h (by simp)
      | some n =>
        rw [hres] at h
        cases hrec : stocksLoop ws (ids.erase w.code) with
        | none => rw [hrec] at h; exact absurd h (by simp)
        | some pr =>
          obtain ⟨s', rest'⟩ := pr
          rw [hrec] at h
          simp only [Option.some.injEq, Prod.mk.injEq] at h
          obtain ⟨h1, h2⟩ := h
          subst h1; subst h2
          rw [List.map_cons, List.cons_append, List.nodup_cons]
          refine ⟨?_, ih (ids.erase w.code) s' rest' (hnd.erase _) hrec⟩
          intro hin
          have hmm := stocksLoop_mem ws (ids.erase w.code) s' rest' hrec w.code
          have : w.code ∈ ids.erase w.code := hmm.2 (by
            rcases List.mem_append.1 hin with h1 | h2
            · exact Or.inl h1
            · exact Or.inr h2)
          exact ((hnd.mem_erase_iff).1 this).1 rfl
    · rw [stocksLoop, if_neg hmem] at h
      exact ih ids s rest hnd h

/-- For a duplicate-free id list, every remnant code that was in the
input ids is gone from the leftover ids. -/
theorem stocksLoop_matched_removed : ∀ (rem : List Remnant) (ids : List String)
    (s : List Stock) (rest : List String), ids.Nodup →
    stocksLoop rem ids = some (s, rest) →
    ∀ w ∈ rem, w.code ∈ ids → w.code ∉ rest := by
  intro rem
  induction rem with
  | nil =>
    intro ids s rest _ _ w hw
    exact absurd hw (List.not_mem_nil w)
  | cons w0 ws ih =>
    intro ids s rest hnd h w hw hcode
    by_cases hmem : w0.code ∈ ids
    · rw [stocksLoop, if_pos hmem] at h
      cases hres : resolveCount w0.quantity with
      | none => rw [hres] at h; exact absurd h (by simp)
      | some n =>
        rw [hres] at h
        cases hrec : stocksLoop ws (ids.erase w0.code) with
        | none => rw [hrec] at h; exact absurd h (by simp)
        | some pr =>
          obtain ⟨s', rest'⟩ := pr
          rw [hrec] at h
          simp only [Option.some.injEq, Prod.mk.injEq] at h
          obtain ⟨h1, h2⟩ := h
          subst h1; subst h2
          by_cases hwe : w.code = w0.code
          · rw [hwe]
            intro hin
            have hsub := stocksLoop_rest_sublist ws (ids.erase w0.code) s' rest' hrec
            have : w0.code ∈ ids.erase w0.code := hsub.subset hin
            exact ((hnd.mem_erase_iff).1 this).1 rfl
          · rcases List.mem_cons.1 hw with hw1 | hw2
            · exact absurd (congrArg Remnant.code hw1) hwe
            · exact ih (ids.erase w0.code) s' rest' (hnd.erase _) hrec w hw2
                ((List.mem_erase_of_ne hwe).2 hcode)
    · rw [stocksLoop, if_neg hmem] at h
      rcases List.mem_cons.1 hw with hw1 | hw2
      · exact absurd (hw1 ▸ hcode) hmem
      · exact ih ids s rest hnd h w hw2 hcode

/-- The price builder is exactly a filter of the remnants by membership
followed by a per-remnant record construction: one record is emitted for
every occurrence of a matching code, with nothing removed. -/
theorem create_prices_eq : ∀ (rem : List Remnant) (ids : List String),
    create_prices rem ids =
      (rem.filter (fun w => decide (w.code ∈ ids))).map
        (fun w => ⟨"UNKNOWN", "RUB", w.code, "0", price_conversion w.price⟩) := by
  intro rem
  induction rem with
  | nil => intro ids; rfl
  | cons w ws ih =>
    intro ids
    by_cases hmem : w.code ∈ ids
    · rw [create_prices, if_pos hmem, List.filter_cons_of_pos (by simpa using hmem),
        List.map_cons, ih]
    · rw [create_prices, if_neg hmem, List.filter_cons_of_neg (by simpa using hmem), ih]

/-- If no remnant code is in the id list then the price builder emits
nothing. -/
theorem create_prices_nil (rem : List Remnant) (ids : List String)
    (h : ∀ w ∈ rem, w.code ∉ ids) : create_prices rem ids = [] := by
  rw [create_prices_eq]
  have : rem.filter (fun w => decide (w.code ∈ ids)) = [] := by
    apply List.filter_eq_nil_iff.2
    intro w hw
    simpa using h w hw
  rw [this]
  rfl

end Seller

namespace Market

/-- The market remnant loop follows the seller remnant loop step for
step: projecting each market record to its sku gives the same id
sequence, the same leftover ids, and the same failure behaviour. -/
theorem stocksLoop_align (date wh : String) : ∀ (rem : List Remnant) (ids : List String),
    (Market.stocksLoop date wh rem ids).map (fun p => (p.1.map Market.Stock.sku, p.2))
      = (Seller.stocksLoop rem ids).map (fun p => (p.1.map Seller.Stock.offer_id, p.2)) := by
  intro rem
  induction rem with
  | nil => intro ids; rfl
  | cons w ws ih =>
    intro ids
    by_cases hmem : w.code ∈ ids
    · rw [Market.stocksLoop, Seller.stocksLoop, if_pos hmem, if_pos hmem]
      cases hres : resolveCount w.quantity with
      | none => rfl
      | some n =>
        have ihh := ih (ids.erase w.code)
        cases h1 : Seller.stocksLoop ws (ids.erase w.code) with
        | none =>
          rw [h1] at ihh
          cases h2 : Market.stocksLoop date wh ws (ids.erase w.code) with
          | none => rfl
          | some pr => rw [h2] at ihh; simp at ihh
        | some pr =>
          obtain ⟨ss, srest⟩ := pr
          rw [h1] at ihh
          cases h2 : Market.stocksLoop date wh ws (ids.erase w.code) with
          | none => rw [h2] at ihh; exact absurd ihh (by simp)
          | some mpr =>
            obtain ⟨ms, mrest⟩ := mpr
            rw [h2] at ihh
            simp only [Option.map_some', Option.some.injEq, Prod.mk.injEq] at ihh
            obtain ⟨hmap, hrest⟩ := ihh
            simp only [Option.map_some', Option.some.injEq, Prod.mk.injEq,
              List.map_cons]
            exact ⟨by rw [hmap], hrest⟩
    · rw [Market.stocksLoop, Seller.stocksLoop, if_neg hmem, if_neg hmem]
      exact ih ids

/-- The ids of the market price records are exactly the codes of the
remnants whose code is in the id list, one per occurrence, in order. -/
theorem create_prices_codes : ∀ (rem : List Remnant) (ids : List String)
    (out : List Market.Price), Market.create_prices rem ids = some out →
    out.map Market.Price.id =
      (rem.filter (fun w => decide (w.code ∈ ids))).map Remnant.code := by
  intro rem
  induction rem with
  | nil =>
    intro ids out h
    simp only [Market.create_prices, Option.some.injEq] at h
    subst h
    rfl
  | cons w ws ih =>
    intro ids out h
    by_cases hmem : w.code ∈ ids
    · rw [Market.create_prices, if_pos hmem] at h
      cases hpi : pyInt (Seller.price_conversion w.price) with
      | none => rw [hpi] at h; exact absurd h (by simp)
      | some v =>
        rw [hpi] at h
        cases hrec : Market.create_prices ws ids with
        | none => rw [hrec] at h; exact absurd h (by simp)
        | some rest =>
          rw [hrec] at h
          simp only [Option.some.injEq] at h
          subst h
          simp [List.filter_cons, hmem, ih ids rest hrec]
    · rw [Market.create_prices, if_neg hmem] at h
      have hgoal := ih ids out h
      simpa [List.filter_cons, hmem] using hgoal

/-- Restatement of market create_stocks as the remnant loop followed by
the zero-fill of the leftover ids, convenient for case analysis. -/
theorem market_create_stocks_eq (date warehouse_id : String) (rem : List Remnant)
    (ids : List String) :
    Market.create_stocks date warehouse_id rem ids =
      (Market.stocksLoop date warehouse_id rem ids).map
        (fun p => (p.1 ++ p.2.map (fun i => ⟨i, warehouse_id, [⟨0, "FIT", date⟩]⟩), p.2)) := by
  rw [Market.create_stocks]
  cases Market.stocksLoop date warehouse_id rem ids with
  | none => rfl
  | some pr => rfl

end Market

namespace Seller

/-- Number of chunks that divide produces on a list of the given length
for a positive chunk size, in purely natural-number terms. -/
def chunkCount (len n : Nat) : Nat :=
  if len = 0 then 0 else (len - 1) / n + 1

/-- The chunk list divide produces for a positive size, in purely
natural-number terms: the slice of length at most n at every multiple of
n below the length. -/
def chunkSlices {α : Type} (n : Nat) (l : List α) : List (List α) :=
  (List.range (chunkCount l.length n)).map (fun k => (l.drop (n * k)).take n)

theorem pyRangeLen_chunk (len n : Nat) (hn : 0 < n) :
    pyRangeLen 0 (len : Int) (n : Int) = chunkCount len n := by
  unfold pyRangeLen chunkCount
  have h1 : (0 : Int) < (n : Int) := by exact_mod_cast hn
  rw [if_pos h1]
  by_cases h : len = 0
  · subst h; simp
  · have hl : (0 : Int) < (len : Int) := by
      exact_mod_cast Nat.pos_of_ne_zero h
    rw [if_pos hl, if_neg h]
    have e1 : ((len : Int) - 0 - 1) = ((len - 1 : Nat) : Int) := by omega
    rw [e1, ← Int.natCast_div, Int.toNat_natCast]

theorem divide_eq_chunkSlices {α : Type} (l : List α) (n : Nat) (hn : 0 < n) :
    divide l (n : Int) = some (chunkSlices n l) := by
  have hne : ((n : Int) ≠ 0) := by exact_mod_cast hn.ne'
  rw [divide, if_neg hne]
  congr 1
  rw [pyRange, pyRangeLen_chunk l.length n hn, List.map_map]
  apply List.map_congr_left
  intro k _
  show (l.drop ((0 : Int) + (n : Int) * (k : Int)).toNat).take ((n : Int)).toNat
      = (l.drop (n * k)).take n
  rw [zero_add, ← Nat.cast_mul, Int.toNat_natCast, Int.toNat_natCast]

theorem chunkCount_succ (len n : Nat) (hn : 0 < n) (hl : 0 < len) :
    chunkCount len n = chunkCount (len - n) n + 1 := by
  unfold chunkCount
  by_cases h : len - n = 0
  · rw [if_pos h, if_neg hl.ne']
    have hlt : len - 1 < n := by omega
    rw [Nat.div_eq_of_lt hlt]
  · rw [if_neg h, if_neg hl.ne']
    have h2 : len - n - 1 + n = len - 1 := by omega
    rw [← h2, Nat.add_div_right _ hn]

theorem chunkSlices_nil {α : Type} (n : Nat) : chunkSlices n ([] : List α) = [] := by
  simp [chunkSlices, chunkCount]

theorem chunkSlices_cons {α : Type} (n : Nat) (hn : 0 < n) (l : List α) (hl : l ≠ []) :
    chunkSlices n l = l.take n :: chunkSlices n (l.drop n) := by
  unfold chunkSlices
  have hlen : 0 < l.length := List.length_pos.2 hl
  rw [List.length_drop, chunkCount_succ l.length n hn hlen, List.range_succ_eq_map,
    List.map_cons, List.map_map]
  congr 1
  apply List.map_congr_left
  intro k _
  show (l.drop (n * (k + 1))).take n = ((l.drop n).drop (n * k)).take n
  rw [List.drop_drop, Nat.mul_succ, Nat.add_comm]

theorem chunkSlices_flatten {α : Type} (n : Nat) (hn : 0 < n) (l : List α) :
    (chunkSlices n l).flatten = l := by
  suffices h : ∀ (len : Nat) (l : List α), l.length ≤ len → (chunkSlices n l).flatten = l by
    exact h l.length l le_rfl
  intro len
  induction len with
  | zero =>
    intro l hl
    have : l = [] := List.eq_nil_of_length_eq_zero (Nat.le_zero.1 hl)
    subst this
    simp [chunkSlices_nil]
  | succ m ih =>
    intro l hl
    by_cases hnil : l = []
    · subst hnil; simp [chunkSlices_nil]
    · have hlen : 0 < l.length := List.length_pos.2 hnil
      have hdrop : (l.drop n).length ≤ m := by
        rw [List.length_drop]; omega
      rw [chunkSlices_cons n hn l hnil, List.flatten_cons, ih (l.drop n) hdrop,
        List.take_append_drop]

theorem chunkSlices_length_le {α : Type} (n : Nat) (l : List α) :
    ∀ c ∈ chunkSlices n l, c.length ≤ n := by
  intro c hc
  obtain ⟨k, _, rfl⟩ := List.mem_map.1 hc
  exact List.length_take_le _ _

theorem chunkSlices_dropLast {α : Type} (n : Nat) (hn : 0 < n) (l : List α) :
    ∀ c ∈ (chunkSlices n l).dropLast, c.length = n := by
  intro c hc
  unfold chunkSlices at hc
  cases hm : chunkCount l.length n with
  | zero => rw [hm] at hc; exact absurd hc (by simp)
  | succ m =>
    simp only [hm, List.range_succ, List.map_append, List.map_cons, List.map_nil,
      List.dropLast_concat] at hc
    obtain ⟨k, hk, rfl⟩ := List.mem_map.1 hc
    have hkm : k < m := List.mem_range.1 hk
    have hlen : l.length ≠ 0 := by
      intro h0
      rw [chunkCount, if_pos h0] at hm
      exact absurd hm (by simp)
    have hmm : m = (l.length - 1) / n := by
      rw [chunkCount, if_neg hlen] at hm
      omega
    have hdiv : k + 1 ≤ (l.length - 1) / n := by omega
    have hmul : (k + 1) * n ≤ l.length - 1 :=
      (Nat.le_div_iff_mul_le hn).1 hdiv
    have hnk : n * k + n ≤ l.length - 1 := by
      rw [Nat.add_mul, one_mul, Nat.mul_comm k n] at hmul
      exact hmul
    rw [List.length_take, List.length_drop]
    have : n ≤ l.length - n * k := by omega
    rw [Nat.min_eq_left this]

/-- Restatement of create_stocks as the remnant loop followed by the
zero-fill of the leftover ids, convenient for case analysis. -/
theorem create_stocks_eq (rem : List Remnant) (ids : List String) :
    create_stocks rem ids =
      (stocksLoop rem ids).map
        (fun p => (p.1 ++ p.2.map (fun i => ⟨i, 0⟩), p.2)) := by
  rw [create_stocks]
  cases stocksLoop rem ids with
  | none => rfl
  | some pr => rfl

/-- Bound on every batch produced by divide at a positive size. -/
theorem divide_batches_le {α : Type} (l : List α) (n : Int) (hn : 1 ≤ n)
    (bs : List (List α)) (h : divide l n = some bs) :
    ∀ b ∈ bs, b.length ≤ n.toNat := by
  have hcast : ((n.toNat : Int)) = n := Int.toNat_of_nonneg (by omega)
  rw [← hcast, divide_eq_chunkSlices l n.toNat (by omega)] at h
  have hbs : bs = chunkSlices n.toNat l := by
    simpa using h.symm
  subst hbs
  exact chunkSlices_length_le _ _

/-- A string made only of decimal digits passes through the price
conversion unchanged. -/
theorem price_conversion_digits (s : String)
    (h : s.toList.all Char.isDigit) : price_conversion s = s := by
  obtain ⟨cs⟩ := s
  have hall : ∀ c ∈ cs, Char.isDigit c = true := by
    simpa [String.toList, List.all_eq_true] using h
  show String.mk ((cs.takeWhile (fun c => c != '.')).filter Char.isDigit) = ⟨cs⟩
  have h1 : ∀ (l : List Char), (∀ c ∈ l, Char.isDigit c = true) →
      l.takeWhile (fun c => c != '.') = l := by
    intro l
    induction l with
    | nil => intro _; rfl
    | cons c cs2 ih =>
      intro hl
      have hc : (c != '.') = true := by
        have hcd := hl c (List.mem_cons_self _ _)
        by_cases hce : c = '.'
        · subst hce; exact absurd hcd (by decide)
        · simp [hce]
      simp only [List.takeWhile_cons, hc, if_true]
      rw [ih (fun d hd => hl d (List.mem_cons_of_mem _ hd))]
  have h2 : cs.filter Char.isDigit = cs :=
    List.filter_eq_self.2 hall
  rw [h1 cs hall, h2]

/-- The output of the price conversion consists of digits only. -/
theorem price_conversion_all_digits (s : String) :
    (price_conversion s).toList.all Char.isDigit := by
  show ((String.mk ((s.toList.takeWhile (fun c => c != '.')).filter
    Char.isDigit)).toList.all Char.isDigit) = true
  rw [List.all_eq_true]
  intro c hc
  exact (List.mem_filter.1 hc).2

end Seller

/-!
Theorems settling the frozen claims C1 to C10.
-/

/-- C5: for every remnant whose code is in the known identifiers, the
resolved stock count is 100 for raw quantity ">10", 0 for raw quantity
"1", and the literal parsed integer for any other raw integer value;
the first emitted record of create_stocks carries exactly that resolved
count. -/
theorem c5_quantity_resolution :
    resolveCount ">10" = some 100 ∧ resolveCount "1" = some 0 ∧
    resolveCount "37" = some 37 ∧
    (∀ (q : String) (m : Int), q ≠ ">10" → q ≠ "1" → pyInt q = some m →
      resolveCount q = some m) ∧
    (∀ (w : Remnant) (ws : List Remnant) (ids : List String)
        (out : List Seller.Stock × List String),
      w.code ∈ ids → Seller.create_stocks (w :: ws) ids = some out →
      ∃ (m : Int) (tail : List Seller.Stock),
        resolveCount w.quantity = some m ∧ out.1 = ⟨w.code, m⟩ :: tail) := by
  refine ⟨by decide, by decide, by decide, ?_, ?_⟩
  · intro q m h1 h2 h3
    rw [resolveCount, if_neg h1, if_neg h2]
    exact h3
  · intro w ws ids out hmem h
    rw [Seller.create_stocks_eq, Seller.stocksLoop, if_pos hmem] at h
    cases hres : resolveCount w.quantity with
    | none => rw [hres] at h; exact absurd h (by simp)
    | some m =>
      rw [hres] at h
      cases hrec : Seller.stocksLoop ws (ids.erase w.code) with
      | none => rw [hrec] at h; exact absurd h (by simp)
      | some pr =>
        obtain ⟨s2, rest2⟩ := pr
        rw [hrec] at h
        simp only [Option.map_some', Option.some.injEq] at h
        refine ⟨m, s2 ++ rest2.map (fun i => ⟨i, 0⟩), rfl, ?_⟩
        exact congrArg Prod.fst h.symm

/-- C5 witness: the general conjuncts applied at concrete inputs. -/
theorem c5_quantity_resolution_witness :
    (("+8" : String) ≠ ">10" ∧ ("+8" : String) ≠ "1" ∧ pyInt "+8" = some 8 ∧
      resolveCount "+8" = some 8) ∧
    ("A" ∈ ["A"] ∧
      Seller.create_stocks [⟨"A", "37", "x"⟩] ["A"] = some ([⟨"A", 37⟩], []) ∧
      (∃ (m : Int) (tail : List Seller.Stock),
        resolveCount (Remnant.mk "A" "37" "x").quantity = some m ∧
        (([⟨"A", 37⟩], []) : List Seller.Stock × List String).1 = ⟨"A", m⟩ :: tail)) :=
  ⟨⟨by decide, by decide, by decide,
      c5_quantity_resolution.2.2.2.1 "+8" 8 (by decide) (by decide) (by decide)⟩,
    ⟨by decide, by decide,
      c5_quantity_resolution.2.2.2.2 ⟨"A", "37", "x"⟩ [] ["A"] ([⟨"A", 37⟩], [])
        (by decide) (by decide)⟩⟩

/-- C10: a matched remnant whose raw quantity is neither ">10" nor "1"
nor a parsable integer makes create_stocks fail with the integer-parse
error (none), producing no stock records and skipping nothing. -/
theorem c10_malformed_quantity :
    Seller.create_stocks [⟨"A", "n/a", "0"⟩] ["A"] = none ∧
    Seller.create_stocks [⟨"A", "", "0"⟩] ["A"] = none ∧
    (∀ (c q p : String) (ws : List Remnant) (ids : List String),
      q ≠ ">10" → q ≠ "1" → pyInt q = none → c ∈ ids →
      Seller.create_stocks (⟨c, q, p⟩ :: ws) ids = none) := by
  refine ⟨by decide, by decide, ?_⟩
  intro c q p ws ids h1 h2 h3 hmem
  have hres : resolveCount (Remnant.mk c q p).quantity = none := by
    show resolveCount q = none
    rw [resolveCount, if_neg h1, if_neg h2]
    exact h3
  rw [Seller.create_stocks_eq, Seller.stocksLoop, if_pos hmem, hres]
  rfl

/-- C10 witness: the general conjunct applied at a concrete malformed
quantity. -/
theorem c10_malformed_quantity_witness :
    (("x2" : String) ≠ ">10" ∧ ("x2" : String) ≠ "1" ∧ pyInt "x2" = none ∧
      "B" ∈ ["B", "C"]) ∧
    Seller.create_stocks [⟨"B", "x2", "0"⟩] ["B", "C"] = none :=
  ⟨⟨by decide, by decide, by decide, by decide⟩,
    c10_malformed_quantity.2.2 "B" "x2" "0" [] ["B", "C"]
      (by decide) (by decide) (by decide) (by decide)⟩

/-- C7: for every list and chunk size n of at least 1, divide yields
chunks whose concatenation equals the original list, every chunk except
possibly the last has length exactly n, no chunk exceeds n, and the
empty list yields no chunks. -/
theorem c7_divide_chunks {α : Type} (lst : List α) (n : Int) (hn : 1 ≤ n) :
    ∃ cs, Seller.divide lst n = some cs ∧
      cs.flatten = lst ∧
      (∀ c ∈ cs.dropLast, c.length = n.toNat) ∧
      (∀ c ∈ cs, c.length ≤ n.toNat) ∧
      Seller.divide ([] : List α) n = some [] := by
  have hpos : 0 < n.toNat := by omega
  have hcast : ((n.toNat : Int)) = n := Int.toNat_of_nonneg (by omega)
  refine ⟨Seller.chunkSlices n.toNat lst, ?_, ?_, ?_, ?_, ?_⟩
  · rw [← hcast]
    exact Seller.divide_eq_chunkSlices lst n.toNat hpos
  · exact Seller.chunkSlices_flatten _ hpos _
  · exact Seller.chunkSlices_dropLast _ hpos _
  · exact Seller.chunkSlices_length_le _ _
  · rw [← hcast, Seller.divide_eq_chunkSlices ([] : List α) n.toNat hpos,
      Seller.chunkSlices_nil]

/-- C7 witness: the chunking contract instantiated at a concrete list
and size. -/
theorem c7_divide_chunks_witness :
    (1 : Int) ≤ 2 ∧
    (∃ cs, Seller.divide [1, 2, 3, 4, 5] (2 : Int) = some cs ∧
      cs.flatten = [1, 2, 3, 4, 5] ∧
      (∀ c ∈ cs.dropLast, c.length = (2 : Int).toNat) ∧
      (∀ c ∈ cs, c.length ≤ (2 : Int).toNat) ∧
      Seller.divide ([] : List Nat) (2 : Int) = some []) :=
  ⟨by decide, c7_divide_chunks [1, 2, 3, 4, 5] 2 (by decide)⟩

/-- C9 counterexample: the claim that every chunk size at most 0 signals
an error fails at size minus one, where divide silently yields no chunks
instead of erroring, because the underlying Python range is empty. -/
theorem c9_counterexample :
    Seller.divide [1, 2, 3] (-1 : Int) = some [] := by decide

/-- C9 amended: chunk size exactly 0 signals the error (none, the
ValueError of range) while every negative chunk size silently yields no
chunks. -/
theorem c9_amended {α : Type} (lst : List α) (n : Int) (hn : n < 0) :
    Seller.divide lst 0 = none ∧ Seller.divide lst n = some [] := by
  constructor
  · rw [Seller.divide, if_pos rfl]
  · rw [Seller.divide, if_neg (by omega)]
    have h1 : ¬ ((0 : Int) < n) := by omega
    have h2 : ¬ ((lst.length : Int) < 0) := by
      have : (0 : Int) ≤ (lst.length : Int) := Int.natCast_nonneg _
      omega
    simp [Seller.pyRange, Seller.pyRangeLen, h1, hn, h2]

/-- C9 amended witness: the two behaviours at a concrete list and a
concrete negative size. -/
theorem c9_amended_witness :
    (-1 : Int) < 0 ∧
    (Seller.divide [1, 2, 3] (0 : Int) = none ∧
      Seller.divide [1, 2, 3] (-1 : Int) = some []) :=
  ⟨by decide, c9_amended [1, 2, 3] (-1) (by decide)⟩

/-- C8: price conversion maps the sample localized price string to its
digit form, is the identity on digits-only strings, and is idempotent on
every input. -/
theorem c8_price_normalization :
    Seller.price_conversion "19'990.00 руб." = "19990" ∧
    (∀ s : String, s.toList.all Char.isDigit →
      Seller.price_conversion s = s) ∧
    (∀ s : String,
      Seller.price_conversion (Seller.price_conversion s) =
        Seller.price_conversion s) :=
  ⟨by decide,
    fun s h => Seller.price_conversion_digits s h,
    fun s => Seller.price_conversion_digits _
      (Seller.price_conversion_all_digits s)⟩

/-- C8 witness: the identity conjunct applied at a concrete digits-only
string. -/
theorem c8_price_normalization_witness :
    ("19990" : String).toList.all Char.isDigit = true ∧
    Seller.price_conversion "19990" = "19990" :=
  ⟨by decide, c8_price_normalization.2.1 "19990" (by decide)⟩

/-- C6 counterexample: the claim gives 900 as the stock batch ceiling of
the Ozon dispatch, but seller.upload_stocks chunks stocks at size 100: a
list of 200 records is dispatched as two calls of 100 records each,
where a ceiling of 900 would dispatch it as one call of 200. -/
theorem c6_counterexample :
    (Seller.upload_stocks_batches
        (List.replicate 200 (⟨"A", 0⟩ : Seller.Stock))).map
      (fun bs => bs.map List.length) = some [100, 100] ∧
    ([100, 100] : List Nat) ≠ [200] := by
  constructor
  · decide
  · decide

/-- C6 amended: the observed batch ceilings are 1000 for the Ozon price
dispatch in upload_prices and 900 in main, 100 for the Ozon stock
dispatch in both upload_stocks and main, and 500 and 2000 for the Yandex
Market price and stock dispatches; no dispatched batch exceeds its
ceiling, and 2500 stock records at ceiling 2000 produce exactly two
batches of sizes 2000 and 500 in original order. -/
theorem c6_amended :
    (∀ (l : List Seller.Price) (bs : List (List Seller.Price)),
      Seller.upload_prices_batches l = some bs → ∀ b ∈ bs, b.length ≤ 1000) ∧
    (∀ (l : List Seller.Stock) (bs : List (List Seller.Stock)),
      Seller.upload_stocks_batches l = some bs → ∀ b ∈ bs, b.length ≤ 100) ∧
    (∀ (l : List Seller.Stock) (bs : List (List Seller.Stock)),
      Seller.main_stock_batches l = some bs → ∀ b ∈ bs, b.length ≤ 100) ∧
    (∀ (l : List Seller.Price) (bs : List (List Seller.Price)),
      Seller.main_price_batches l = some bs → ∀ b ∈ bs, b.length ≤ 900) ∧
    (∀ (l : List Market.Price) (bs : List (List Market.Price)),
      Market.upload_prices_batches l = some bs → ∀ b ∈ bs, b.length ≤ 500) ∧
    (∀ (l : List Market.Stock) (bs : List (List Market.Stock)),
      Market.upload_stocks_batches l = some bs → ∀ b ∈ bs, b.length ≤ 2000) ∧
    (∀ (l : List Market.Stock), l.length = 2500 →
      Market.upload_stocks_batches l =
        some [l.take 2000, (l.drop 2000).take 2000] ∧
      (l.take 2000).length = 2000 ∧ ((l.drop 2000).take 2000).length = 500 ∧
      l.take 2000 ++ (l.drop 2000).take 2000 = l) := by
  refine ⟨?_, ?_, ?_, ?_, ?_, ?_, ?_⟩
  · exact fun l bs h => Seller.divide_batches_le l 1000 (by decide) bs h
  · exact fun l bs h => Seller.divide_batches_le l 100 (by decide) bs h
  · exact fun l bs h => Seller.divide_batches_le l 100 (by decide) bs h
  · exact fun l bs h => Seller.divide_batches_le l 900 (by decide) bs h
  · exact fun l bs h => Seller.divide_batches_le l 500 (by decide) bs h
  · exact fun l bs h => Seller.divide_batches_le l 2000 (by decide) bs h
  · intro l hl
    have h1 : Market.upload_stocks_batches l =
        some (Seller.chunkSlices 2000 l) := by
      show Seller.divide l (2000 : Int) = _
      rw [show ((2000 : Int)) = (((2000 : Nat) : Int)) from rfl,
        Seller.divide_eq_chunkSlices l 2000 (by decide)]
    have hcnt : Seller.chunkCount l.length 2000 = 2 := by
      rw [hl]; decide
    have h2 : Seller.chunkSlices 2000 l =
        [l.take 2000, (l.drop 2000).take 2000] := by
      rw [Seller.chunkSlices, hcnt, show List.range 2 = [0, 1] from rfl]
      simp
    have hflat := Seller.chunkSlices_flatten 2000 (by decide) l
    rw [h2] at hflat
    refine ⟨by rw [h1, h2], ?_, ?_, ?_⟩
    · rw [List.length_take, hl]; omega
    · rw [List.length_take, List.length_drop, hl]; omega
    · simpa using hflat

/-- C6 amended witness: the 2500-record scenario at a concrete list. -/
theorem c6_amended_witness :
    (List.replicate 2500 (⟨"S", "W", []⟩ : Market.Stock)).length = 2500 ∧
    (Market.upload_stocks_batches
        (List.replicate 2500 (⟨"S", "W", []⟩ : Market.Stock)) =
      some [(List.replicate 2500 (⟨"S", "W", []⟩ : Market.Stock)).take 2000,
        ((List.replicate 2500 (⟨"S", "W", []⟩ : Market.Stock)).drop 2000).take 2000] ∧
      ((List.replicate 2500 (⟨"S", "W", []⟩ : Market.Stock)).take 2000).length = 2000 ∧
      (((List.replicate 2500 (⟨"S", "W", []⟩ : Market.Stock)).drop 2000).take 2000).length = 500 ∧
      (List.replicate 2500 (⟨"S", "W", []⟩ : Market.Stock)).take 2000 ++
          ((List.replicate 2500 (⟨"S", "W", []⟩ : Market.Stock)).drop 2000).take 2000 =
        List.replicate 2500 (⟨"S", "W", []⟩ : Market.Stock)) :=
  ⟨List.length_replicate 2500 _, c6_amended.2.2.2.2.2.2
    (List.replicate 2500 (⟨"S", "W", []⟩ : Market.Stock))
    (List.length_replicate 2500 _)⟩

/-- C1: for a duplicate-free list of known offer ids and any remnants
list, the set of ids across the stock updates returned by create_stocks
is exactly the set of known ids; matched ids carry the resolved count of
the first remnant with that code, every remaining id gets a zero record,
and the output lists the matched records in remnant iteration order
followed by the remaining ids in original catalog order; the market
variant covers the same set of ids. -/
theorem c1_reconciliation_complete (rem : List Remnant) (ids : List String)
    (hnd : ids.Nodup) :
    (∀ (stocks : List Seller.Stock) (rest : List String),
      Seller.create_stocks rem ids = some (stocks, rest) →
      (∀ x, x ∈ stocks.map Seller.Stock.offer_id ↔ x ∈ ids) ∧
      (∃ s, Seller.stocksLoop rem ids = some (s, rest) ∧
        stocks = s ++ rest.map (fun i => ⟨i, 0⟩) ∧
        (s.map Seller.Stock.offer_id).Sublist (rem.map Remnant.code) ∧
        rest.Sublist ids ∧
        (∀ r ∈ s, ∃ w, rem.find? (fun v => v.code == r.offer_id) = some w ∧
          resolveCount w.quantity = some r.stock))) ∧
    (∀ (date wh : String) (stocks : List Market.Stock) (rest : List String),
      Market.create_stocks date wh rem ids = some (stocks, rest) →
      ∀ x, x ∈ stocks.map Market.Stock.sku ↔ x ∈ ids) := by
  constructor
  · intro stocks rest h
    rw [Seller.create_stocks_eq] at h
    cases hsl : Seller.stocksLoop rem ids with
    | none => rw [hsl] at h; exact absurd h (by simp)
    | some pr =>
      obtain ⟨s, r⟩ := pr
      rw [hsl] at h
      simp only [Option.map_some', Option.some.injEq, Prod.mk.injEq] at h
      obtain ⟨hstocks, hrest⟩ := h
      subst hrest
      have hzero : (r.map (fun i => (⟨i, 0⟩ : Seller.Stock))).map
          Seller.Stock.offer_id = r := by
        rw [List.map_map]
        exact List.map_id _
      constructor
      · intro x
        rw [← hstocks, List.map_append, hzero, List.mem_append]
        exact (Seller.stocksLoop_mem rem ids s r hsl x).symm
      · exact ⟨s, rfl, hstocks.symm,
          Seller.stocksLoop_codes_sublist rem ids s r hsl,
          Seller.stocksLoop_rest_sublist rem ids s r hsl,
          Seller.stocksLoop_find rem ids s r hnd hsl⟩
  · intro date wh stocks rest h
    rw [Market.market_create_stocks_eq] at h
    cases hm : Market.stocksLoop date wh rem ids with
    | none => rw [hm] at h; exact absurd h (by simp)
    | some mpr =>
      obtain ⟨ms, mr⟩ := mpr
      rw [hm] at h
      simp only [Option.map_some', Option.some.injEq, Prod.mk.injEq] at h
      obtain ⟨hstocks, hrest⟩ := h
      subst hrest
      have halign := Market.stocksLoop_align date wh rem ids
      rw [hm] at halign
      cases hs : Seller.stocksLoop rem ids with
      | none => rw [hs] at halign; exact absurd halign (by simp)
      | some spr =>
        obtain ⟨ss, sr⟩ := spr
        rw [hs] at halign
        simp only [Option.map_some', Option.some.injEq, Prod.mk.injEq] at halign
        obtain ⟨hmap, hr⟩ := halign
        subst hr
        have hzero : (mr.map (fun i =>
            (⟨i, wh, [⟨0, "FIT", date⟩]⟩ : Market.Stock))).map
            Market.Stock.sku = mr := by
          rw [List.map_map]
          exact List.map_id _
        intro x
        rw [← hstocks, List.map_append, hzero, List.mem_append, hmap]
        exact (Seller.stocksLoop_mem rem ids ss mr hs x).symm

/-- C1 witness: the spec scenario with three known ids and two remnants,
checked for the id left unmatched. -/
theorem c1_reconciliation_complete_witness :
    (["A", "B", "C"] : List String).Nodup ∧
    Seller.create_stocks [⟨"A", ">10", "100.00 x"⟩, ⟨"B", "1", "50.00 x"⟩]
      ["A", "B", "C"] = some ([⟨"A", 100⟩, ⟨"B", 0⟩, ⟨"C", 0⟩], ["C"]) ∧
    ("C" ∈ ([⟨"A", 100⟩, ⟨"B", 0⟩, ⟨"C", 0⟩] : List Seller.Stock).map
        Seller.Stock.offer_id ↔ "C" ∈ (["A", "B", "C"] : List String)) :=
  ⟨by decide, by decide,
    (((c1_reconciliation_complete
        [⟨"A", ">10", "100.00 x"⟩, ⟨"B", "1", "50.00 x"⟩]
        ["A", "B", "C"] (by decide)).1
      [⟨"A", 100⟩, ⟨"B", 0⟩, ⟨"C", 0⟩] ["C"] (by decide)).1) "C"⟩

/-- C3 counterexample: the claim that the price-update output contains
at most one record per offer identifier fails: with working set
containing only the duplicated code, create_prices emits one price
record per occurrence of the code, so two records for the same id. -/
theorem c3_counterexample :
    (Seller.create_prices [⟨"A", "5", "10"⟩, ⟨"A", "5", "10"⟩] ["A"]).map
      Seller.Price.offer_id = ["A", "A"] := by decide

/-- C3 amended: for a duplicate-free working set the stock-update output
contains at most one record per offer identifier and the record for a
duplicated code comes from its first occurrence, because each matched
code is removed from the working set; the price builders perform no such
removal and emit one record per matching remnant occurrence, so
duplicate codes yield duplicate price records. -/
theorem c3_one_record_per_id :
    (∀ (rem : List Remnant) (ids : List String) (stocks : List Seller.Stock)
        (rest : List String), ids.Nodup →
      Seller.create_stocks rem ids = some (stocks, rest) →
      (stocks.map Seller.Stock.offer_id).Nodup) ∧
    (∀ (rem : List Remnant) (ids : List String) (s : List Seller.Stock)
        (rest : List String), ids.Nodup →
      Seller.stocksLoop rem ids = some (s, rest) →
      ∀ r ∈ s, ∃ w, rem.find? (fun v => v.code == r.offer_id) = some w ∧
        resolveCount w.quantity = some r.stock) ∧
    (∀ (rem : List Remnant) (ids : List String),
      Seller.create_prices rem ids =
        (rem.filter (fun w => decide (w.code ∈ ids))).map
          (fun w => ⟨"UNKNOWN", "RUB", w.code, "0",
            Seller.price_conversion w.price⟩)) ∧
    (∀ (rem : List Remnant) (ids : List String) (out : List Market.Price),
      Market.create_prices rem ids = some out →
      out.map Market.Price.id =
        (rem.filter (fun w => decide (w.code ∈ ids))).map Remnant.code) := by
  refine ⟨?_, Seller.stocksLoop_find, Seller.create_prices_eq,
    Market.create_prices_codes⟩
  intro rem ids stocks rest hnd h
  rw [Seller.create_stocks_eq] at h
  cases hsl : Seller.stocksLoop rem ids with
  | none => rw [hsl] at h; exact absurd h (by simp)
  | some pr =>
    obtain ⟨s, r⟩ := pr
    rw [hsl] at h
    simp only [Option.map_some', Option.some.injEq, Prod.mk.injEq] at h
    obtain ⟨hstocks, hrest⟩ := h
    have hzero : (r.map (fun i => (⟨i, 0⟩ : Seller.Stock))).map
        Seller.Stock.offer_id = r := by
      rw [List.map_map]
      exact List.map_id _
    rw [← hstocks, List.map_append, hzero]
    exact Seller.stocksLoop_nodup rem ids s r hnd hsl

/-- C3 amended witness: a duplicated remnant code produces one stock
record for a duplicate-free working set. -/
theorem c3_one_record_per_id_witness :
    (["A"] : List String).Nodup ∧
    Seller.create_stocks [⟨"A", "5", "10"⟩, ⟨"A", "5", "10"⟩] ["A"] =
      some ([⟨"A", 5⟩], []) ∧
    (([⟨"A", 5⟩] : List Seller.Stock).map Seller.Stock.offer_id).Nodup :=
  ⟨by decide, by decide,
    c3_one_record_per_id.1 [⟨"A", "5", "10"⟩, ⟨"A", "5", "10"⟩] ["A"]
      [⟨"A", 5⟩] [] (by decide) (by decide)⟩

/-- C4: on a duplicate-free id list, create_stocks removes every
remnant-matched code from the caller-visible offer id list, so a
subsequent create_prices on that same list emits records only for codes
not matched by create_stocks, and if every remnant code was matched it
emits nothing. -/
theorem c4_destructive_removal (rem : List Remnant) (ids : List String)
    (stocks : List Seller.Stock) (rest : List String) (hnd : ids.Nodup)
    (h : Seller.create_stocks rem ids = some (stocks, rest)) :
    (∀ w ∈ rem, w.code ∈ ids → w.code ∉ rest) ∧
    (∀ p ∈ Seller.create_prices rem rest,
      ¬ ∃ w ∈ rem, w.code = p.offer_id ∧ w.code ∈ ids) ∧
    ((∀ w ∈ rem, w.code ∈ ids) → Seller.create_prices rem rest = []) := by
  rw [Seller.create_stocks_eq] at h
  cases hsl : Seller.stocksLoop rem ids with
  | none => rw [hsl] at h; exact absurd h (by simp)
  | some pr =>
    obtain ⟨s, r⟩ := pr
    rw [hsl] at h
    simp only [Option.map_some', Option.some.injEq, Prod.mk.injEq] at h
    obtain ⟨hstocks, hrest⟩ := h
    subst hrest
    have hrem := Seller.stocksLoop_matched_removed rem ids s r hnd hsl
    refine ⟨hrem, ?_, ?_⟩
    · rintro p hp ⟨w, hw, hwp, hwin⟩
      have hpr : p.offer_id ∈ r := by
        rw [Seller.create_prices_eq] at hp
        obtain ⟨w2, hw2, rfl⟩ := List.mem_map.1 hp
        have := (List.mem_filter.1 hw2).2
        simpa using this
      exact hrem w hw hwin (hwp ▸ hpr)
    · intro hall
      exact Seller.create_prices_nil rem r
        (fun w hw => hrem w hw (hall w hw))

/-- C4 witness: with every remnant code matched, the subsequent price
build on the mutated list is empty. -/
theorem c4_destructive_removal_witness :
    (["A"] : List String).Nodup ∧
    Seller.create_stocks [⟨"A", ">10", "9.00 x"⟩] ["A"] =
      some ([⟨"A", 100⟩], []) ∧
    (∀ w ∈ ([⟨"A", ">10", "9.00 x"⟩] : List Remnant), w.code ∈ ["A"]) ∧
    Seller.create_prices [⟨"A", ">10", "9.00 x"⟩] [] = [] :=
  ⟨by decide, by decide, by decide,
    (c4_destructive_removal [⟨"A", ">10", "9.00 x"⟩] ["A"] [⟨"A", 100⟩] []
      (by decide) (by decide)).2.2 (by decide)⟩

/-- A stalled Ozon catalog server: every response carries no items, a
reported total of 5 and an empty cursor, the empty-or-absent page-token
condition of the claim. -/
def sellerStallServer : String → Seller.Page := fun _ => ⟨[], some 5, ""⟩

/-- C2 counterexample: against a server whose every response has an
empty page token but a total larger than the items returned, the Ozon
fetch loop never finishes, for any number of iterations: its
termination test compares the reported total with the accumulated count
and never looks at the token, so the claim fails for this marketplace. -/
theorem c2_counterexample :
    ¬ ∃ (fuel : Nat) (out : List String),
      Seller.get_offer_ids sellerStallServer fuel = some out := by
  have hloop : ∀ fuel : Nat,
      Seller.fetchLoop sellerStallServer fuel "" [] = none := by
    intro fuel
    induction fuel with
    | zero => rfl
    | succ m ih => simpa [Seller.fetchLoop, sellerStallServer] using ih
  rintro ⟨fuel, out, h⟩
  rw [Seller.get_offer_ids, hloop fuel] at h
  exact absurd h (by simp)

/-- C2 amended: the Yandex Market fetch loop terminates as soon as the
next page token is empty or absent, whatever total the server reports
and however few items were returned, while the Ozon fetch loop
terminates exactly when the reported total equals the accumulated item
count, with its cursor playing no part in the termination test. -/
theorem c2_pagination_termination :
    (∀ (server : String → Market.Page), (server "").nextPageToken = "" →
      ∀ fuel : Nat, 1 ≤ fuel →
        Market.get_offer_ids server fuel =
          some ((server "").offerMappingEntries.map (fun e => e.offer.shopSku))) ∧
    (∀ (server : String → Seller.Page),
      (server "").total = some ((server "").items.length : Int) →
      ∀ fuel : Nat, 1 ≤ fuel →
        Seller.get_offer_ids server fuel =
          some ((server "").items.map Seller.Item.offer_id)) := by
  constructor
  · intro server htok fuel hfuel
    obtain ⟨m, rfl⟩ : ∃ m, fuel = m + 1 := ⟨fuel - 1, by omega⟩
    rw [Market.get_offer_ids, Market.fetchLoop]
    simp [htok]
  · intro server htot fuel hfuel
    obtain ⟨m, rfl⟩ : ∃ m, fuel = m + 1 := ⟨fuel - 1, by omega⟩
    rw [Seller.get_offer_ids, Seller.fetchLoop]
    simp [htot]

/-- A one-page Yandex Market catalog server: one entry, an empty next
page token, and a reported total of 5, larger than what was returned. -/
def marketOnePageServer : String → Market.Page :=
  fun _ => ⟨[⟨⟨"S1"⟩⟩], "", some 5⟩

/-- A one-page Ozon catalog server whose reported total matches the
single item it returns. -/
def sellerOnePageServer : String → Seller.Page :=
  fun _ => ⟨[⟨"A1"⟩], some 1, ""⟩

/-- C2 amended witness: both fetch loops finish on one page against the
concrete servers, the market one although the reported total of 5
exceeds the single entry returned. -/
theorem c2_pagination_termination_witness :
    ((marketOnePageServer "").nextPageToken = "" ∧
      Market.get_offer_ids marketOnePageServer 1 = some ["S1"]) ∧
    ((sellerOnePageServer "").total =
        some (((sellerOnePageServer "").items.length : Int)) ∧
      Seller.get_offer_ids sellerOnePageServer 1 = some ["A1"]) :=
  ⟨⟨rfl, c2_pagination_termination.1 marketOnePageServer rfl 1 (by decide)⟩,
    ⟨rfl, c2_pagination_termination.2 sellerOnePageServer rfl 1 (by decide)⟩⟩
